import Mathlib

/-!
Verification of the CString library (`include/cstr.h`): a shallow embedding of
the thread-safe dynamic string type and its operations, with theorems settling
the spec claims.

Modelling conventions:
* A byte is a `Nat`; a heap allocation is a `List Nat` whose length is the true
  allocated size.  `CString.data` is the allocation pointed to by the C `data`
  field, `length` and `capacity` are the corresponding `size_t` fields.
* `malloc`/`realloc` success is an explicit oracle parameter `allocOk : Bool`;
  an operation that allocates receives it and follows the source's failure
  path when it is `false`.
* A C string argument (`const char*`) is the list of bytes readable from the
  pointer; `strlen`/`strchr` scan it up to its first zero byte, exactly as the
  C library functions do.
* A constructor result is `Option CString`: `none` stands for a destination
  object whose `data` pointer is `NULL` (never filled in).  The accompanying
  `Bool` is the function's return value, which the source may set
  independently of whether the allocation succeeded.
* Out-of-bounds reads (undefined behaviour in C) surface as `none` from
  `List.getElem?`; in-bounds reads return `some` of the stored byte.
-/

namespace CStr

/-- The `strlen`: index of the first zero byte readable from the pointer
(the whole list if none occurs within it). -/
def cstrlen (l : List Nat) : Nat := l.findIdx (fun c => c == 0)

/-- The `strchr(s, c) != NULL`: `c` occurs in `s` up to and including `s`'s own
terminator, so the zero byte always matches. -/
def strchrB (s : List Nat) (c : Nat) : Bool :=
  c == 0 || (s.take (cstrlen s)).contains c

/-- The `memcpy(l + off, src, src.length)` into an allocation `l`
(`memmove` behaves the same once the source bytes are read out first). -/
def writeAt (l : List Nat) (off : Nat) (src : List Nat) : List Nat :=
  l.take off ++ src ++ l.drop (off + src.length)

/-- The `SecureZeroMemory(l, n)`: zero the first `n` bytes of the allocation. -/
def memset0 (n : Nat) (l : List Nat) : List Nat :=
  List.replicate (min n l.length) 0 ++ l.drop n

/-- Fresh bytes coming out of `realloc` are indeterminate; they are modelled
by this fixed junk value, which no theorem relies on. -/
def junkByte : Nat := 170

/-- Successful `realloc` to `size` bytes: the common prefix is preserved,
any new tail is indeterminate. -/
def reallocBytes (l : List Nat) (size : Nat) : List Nat :=
  if size ≤ l.length then l.take size else l ++ List.replicate (size - l.length) junkByte

/-- The `isspace` for the `char` range: space, tab, newline, vertical tab,
form feed, carriage return. -/
def isspaceB (c : Nat) : Bool :=
  c == 32 || c == 9 || c == 10 || c == 11 || c == 12 || c == 13

/-- The `size_t` modulus. -/
def SZ : Nat := 2 ^ 64

/-- The `CString` struct: `data` is the backing allocation (its list length is
the allocated size), `length` and `capacity` the bookkeeping fields.  The
critical section has no observable state beyond the lock traces modelled for
`cstr_swap`. -/
structure CString where
  data : List Nat
  length : Nat
  capacity : Nat
deriving DecidableEq

/-- The logical content: the first `length` bytes of the allocation. -/
def content (s : CString) : List Nat := s.data.take s.length

/-- The invariant claimed by the spec: the byte stored at offset `length`
exists and is the zero terminator. -/
def terminated (s : CString) : Prop := s.data[s.length]? = some 0

instance (s : CString) : Decidable (terminated s) := by
  unfold terminated; infer_instance

/-- A healthy object: the `capacity` field records the allocation size, there
is room for the terminator, and the terminator is in place. -/
def wf (s : CString) : Prop :=
  s.capacity = s.data.length ∧ s.length + 1 ≤ s.capacity ∧ terminated s

instance (s : CString) : Decidable (wf s) := by
  unfold wf; infer_instance

/-! ## Constructors -/

/-- The `cstr_strdup`: copy the narrow string up to and including its terminator;
`none` when `malloc` fails. -/
def cstr_strdup (allocOk : Bool) (str : List Nat) : Option (List Nat) :=
  if allocOk then some (str.take (cstrlen str) ++ [0]) else none

/-- The `cstr_create`: one terminator byte, length 0, capacity 1; checks the
allocation and returns `false` without touching the object when it fails. -/
def cstr_create (allocOk : Bool) : Option CString × Bool :=
  if allocOk then (some ⟨[0], 0, 1⟩, true) else (none, false)

/-- The `cstr_create_from_cstr`: `data := cstr_strdup(obj2->data)`,
`length`/`capacity` copied from the source.  The source never inspects the
`cstr_strdup` result, so the return value is `true` even when the duplicate
is `none` (a `NULL` `data` pointer). -/
def cstr_create_from_cstr (allocOk : Bool) (obj2 : CString) : Option CString × Bool :=
  (match cstr_strdup allocOk obj2.data with
   | some d => some ⟨d, obj2.length, obj2.capacity⟩
   | none => none,
   true)

/-- The `cstr_create_from_chars`: duplicate a narrow string; `length := strlen`,
`capacity := length + 1`.  Like the copy constructor, the `cstr_strdup`
result is not checked and the return value is always `true`. -/
def cstr_create_from_chars (allocOk : Bool) (d : List Nat) : Option CString × Bool :=
  (match cstr_strdup allocOk d with
   | some buf => some ⟨buf, cstrlen d, cstrlen d + 1⟩
   | none => none,
   true)

/-- The `cstr_create_from_buffer`: copy `size` raw bytes and append a terminator;
`length := size`, `capacity := size + 1`; the allocation is checked. -/
def cstr_create_from_buffer (allocOk : Bool) (buffer : List Nat) (size : Nat) :
    Option CString × Bool :=
  if allocOk then (some ⟨buffer.take size ++ [0], size, size + 1⟩, true) else (none, false)

/-! ## Mutating operations (state after the call, return value) -/

/-- The `cstr_resize`: `realloc` to exactly `size` bytes; `capacity := size`,
`length` untouched; on failure the object is unchanged. -/
def cstr_resize (allocOk : Bool) (s : CString) (size : Nat) : CString × Bool :=
  if allocOk then (⟨reallocBytes s.data size, s.length, size⟩, true) else (s, false)

/-- The `cstr_shrink_to_fit`: resize to `length + 1`. -/
def cstr_shrink_to_fit (allocOk : Bool) (s : CString) : CString × Bool :=
  cstr_resize allocOk s (s.length + 1)

/-- The `cstr_clear`: `SecureZeroMemory(data, capacity)` and `length := 0`. -/
def cstr_clear (s : CString) : CString × Bool :=
  (⟨memset0 s.capacity s.data, 0, s.capacity⟩, true)

/-- The `cstr_push_back_char`: grow to `length + 2` when `length + 1 ≥ capacity`,
then store the byte at `length` and a terminator at `length + 1`. -/
def cstr_push_back_char (allocOk : Bool) (s : CString) (chr : Nat) : CString × Bool :=
  let step := if s.length + 1 ≥ s.capacity then cstr_resize allocOk s (s.length + 2)
              else (s, true)
  if step.2 then
    (⟨(step.1.data.set step.1.length chr).set (step.1.length + 1) 0,
      step.1.length + 1, step.1.capacity⟩, true)
  else (step.1, false)

/-- The `cstr_pop_back`: fail on an empty string, else zero the last content byte
and decrement `length`. -/
def cstr_pop_back (s : CString) : CString × Bool :=
  if s.length = 0 then (s, false)
  else (⟨s.data.set (s.length - 1) 0, s.length - 1, s.capacity⟩, true)

/-- The `cstr_append_chars`: grow exactly to `length + strlen(d) + 1` when needed,
copy the `strlen(d)` bytes after the current content, re-terminate. -/
def cstr_append_chars (allocOk : Bool) (s : CString) (d : List Nat) : CString × Bool :=
  let data_len := cstrlen d
  let new_length := s.length + data_len
  let step := if new_length + 1 > s.capacity then cstr_resize allocOk s (new_length + 1)
              else (s, true)
  if step.2 then
    (⟨(writeAt step.1.data step.1.length (d.take data_len)).set new_length 0,
      new_length, step.1.capacity⟩, true)
  else (step.1, false)

/-- The `cstr_append_cstr`: append `obj2.length` raw bytes of `obj2`'s content. -/
def cstr_append_cstr (allocOk : Bool) (s obj2 : CString) : CString × Bool :=
  let new_length := s.length + obj2.length
  let step := if new_length + 1 > s.capacity then cstr_resize allocOk s (new_length + 1)
              else (s, true)
  if step.2 then
    (⟨(writeAt step.1.data step.1.length (obj2.data.take obj2.length)).set new_length 0,
      new_length, step.1.capacity⟩, true)
  else (step.1, false)

/-- The `cstr_insert`: fail when `index > length`; grow to `length + 2` when
needed; `memmove` the tail (terminator included) one slot right and store the
byte at `index`. -/
def cstr_insert (allocOk : Bool) (s : CString) (index : Nat) (chr : Nat) : CString × Bool :=
  if index > s.length then (s, false)
  else
    let step := if s.length + 2 > s.capacity then cstr_resize allocOk s (s.length + 2)
                else (s, true)
    if step.2 then
      (⟨(writeAt step.1.data (index + 1)
            ((step.1.data.drop index).take (step.1.length - index + 1))).set index chr,
        step.1.length + 1, step.1.capacity⟩, true)
    else (step.1, false)

/-- The `cstr_erase`: fail when `index ≥ length` or `size = 0`; clamp `size` to
`length - index`; `memmove` the tail (terminator included) left over the
erased region. -/
def cstr_erase (s : CString) (index size : Nat) : CString × Bool :=
  if index ≥ s.length ∨ size = 0 then (s, false)
  else
    let size' := if size > s.length - index then s.length - index else size
    let move_size := s.length - (index + size') + 1
    (⟨writeAt s.data index ((s.data.drop (index + size')).take move_size),
      s.length - size', s.capacity⟩, true)

/-- Lock/unlock events on an instance identified by its address. -/
inductive LockEvent where
  | lock : Nat → LockEvent
  | unlock : Nat → LockEvent
deriving DecidableEq

/-- The lock acquisitions of a trace, in order. -/
def lockOrder (tr : List LockEvent) : List Nat :=
  tr.filterMap fun e => match e with | .lock i => some i | .unlock _ => none

/-- The `cstr_swap`: exchange `data`, `length` and `capacity` field by field; the
locks are taken in argument order (first argument, then second) and released
in reverse.  `ida`/`idb` are the two objects' addresses. -/
def cstr_swap (ida : Nat) (a : CString) (idb : Nat) (b : CString) :
    (CString × CString × Bool) × List LockEvent :=
  ((⟨b.data, b.length, b.capacity⟩, ⟨a.data, a.length, a.capacity⟩, true),
   [LockEvent.lock ida, LockEvent.lock idb, LockEvent.unlock idb, LockEvent.unlock ida])

/-! ## Accessors -/

/-- The `cstr_get`: read `data[index]` with no bounds check; `none` is an access
outside the allocation (undefined behaviour in the source). -/
def cstr_get (s : CString) (index : Nat) : Option Nat := s.data[index]?

/-- The `cstr_front`: `cstr_get(obj, 0)`. -/
def cstr_front (s : CString) : Option Nat := cstr_get s 0

/-- The `cstr_back`: `cstr_get(obj, obj->length - 1)` with `size_t` subtraction,
which wraps to `2^64 - 1` when `length = 0`. -/
def cstr_back (s : CString) : Option Nat := cstr_get s ((s.length + (SZ - 1)) % SZ)

/-! ## Trim -/

/-- The leading-whitespace loop of `cstr_trim`:
`while (start <= end && isspace(data[start])) start++`. -/
def trimStart (data : List Nat) : Nat → Nat → Nat → Nat
  | 0, start, _ => start
  | fuel + 1, start, e =>
    if decide (start ≤ e) && isspaceB (data.getD start 0) then
      trimStart data fuel (start + 1) e
    else start

/-- The trailing-whitespace loop of `cstr_trim`:
`while (end >= start && isspace(data[end])) end--`. -/
def trimEnd (data : List Nat) : Nat → Nat → Nat → Nat
  | 0, _, e => e
  | fuel + 1, start, e =>
    if decide (start ≤ e) && isspaceB (data.getD e 0) then
      trimEnd data fuel start (e - 1)
    else e

/-- The `cstr_trim`: fail (report `false`) on an empty string; otherwise locate
the first and last non-whitespace bytes, `memmove` the kept range to offset 0
when it does not already start there, re-terminate, and return `true`
unconditionally. -/
def cstr_trim (s : CString) : CString × Bool :=
  if s.length = 0 then (s, false)
  else
    let start := trimStart s.data s.length 0 (s.length - 1)
    let e := trimEnd s.data s.length start (s.length - 1)
    let new_length := if start ≤ e then e - start + 1 else 0
    let d1 := if start > 0 then writeAt s.data 0 ((s.data.drop start).take new_length)
              else s.data
    (⟨d1.set new_length 0, new_length, s.capacity⟩, true)

/-! ## Tokenizers -/

/-- The leading-delimiter loop shared by both tokenizers:
`while (pos < len && strchr(delimiters, data[pos]) != NULL) pos++`. -/
def skipDelims (data delims : List Nat) (len : Nat) : Nat → Nat → Nat
  | 0, pos => pos
  | fuel + 1, pos =>
    if decide (pos < len) && strchrB delims (data.getD pos 0) then
      skipDelims data delims len fuel (pos + 1)
    else pos

/-- The token-scan loop of `cstr_tokenize`:
`while (pos < len && strchr(delimiters, data[pos]) == NULL) pos++`. -/
def scanToken (data delims : List Nat) (len : Nat) : Nat → Nat → Nat
  | 0, pos => pos
  | fuel + 1, pos =>
    if decide (pos < len) && !strchrB delims (data.getD pos 0) then
      scanToken data delims len fuel (pos + 1)
    else pos

/-- The `cstr_tokenize`: skip leading delimiters (updating the cursor on
exhaustion), scan the token, and emit it through `cstr_create_from_chars`
applied to the copied bytes plus a terminator.  The cursor moves to
`token_end + 1` when the scan stopped on a delimiter, else to end-of-buffer.
The allocation oracle covers the temporary copy and the token's storage. -/
def cstr_tokenize (allocOk : Bool) (s : CString) (delims : List Nat) (start_pos : Nat) :
    Option CString × Nat :=
  if start_pos ≥ s.length then (none, start_pos)
  else
    let len := s.length
    let pos := skipDelims s.data delims len len start_pos
    if pos ≥ len then (none, pos)
    else
      let token_end := scanToken s.data delims len (len - pos) pos
      if allocOk then
        let temp := (s.data.drop pos).take (token_end - pos) ++ [0]
        match cstr_create_from_chars allocOk temp with
        | (some tok, _) => (some tok, if token_end < len then token_end + 1 else len)
        | (none, _) => (none, start_pos)
      else (none, start_pos)

/-- The inner loop of the zone-pair scan in `cstr_tokenize_ex`: walk the pair
string two characters at a time, stopping at its terminator (also when it
falls on the second character of a pair); return the matching close
character. -/
def zoneLookup : List Nat → Nat → Option Nat
  | z0 :: z1 :: rest, c =>
    if z0 = 0 then none
    else if z1 = 0 then none
    else if c = z0 then some z1
    else zoneLookup rest c
  | _, _ => none

/-- The scan loop of `cstr_tokenize_ex`.  State: position, `in_zone`,
`zone_end`, `escape`.  Yields `some pos` when a delimiter breaks the scan,
`none` when the scan runs to end-of-buffer.  Per character the source does:
escape suppression; else, in a zone, only the zone-close comparison; else a
delimiter breaks, and otherwise the zone-open scan runs and then the
escape-character test runs as well (the two are not exclusive). -/
def scanEx (data delims : List Nat) (zps ecs : Option (List Nat)) (len : Nat) :
    Nat → Nat → Bool → Nat → Bool → Option Nat
  | 0, _, _, _, _ => none
  | fuel + 1, pos, in_zone, zone_end, escape =>
    if pos < len then
      let c := data.getD pos 0
      if escape then
        scanEx data delims zps ecs len fuel (pos + 1) in_zone zone_end false
      else if in_zone then
        if c = zone_end then scanEx data delims zps ecs len fuel (pos + 1) false 0 escape
        else scanEx data delims zps ecs len fuel (pos + 1) in_zone zone_end escape
      else if strchrB delims c then some pos
      else
        let z := match zps with
          | some zp => match zoneLookup zp c with
            | some close => (true, close)
            | none => (in_zone, zone_end)
          | none => (in_zone, zone_end)
        let escape' := match ecs with
          | some ec => strchrB ec c
          | none => escape
        scanEx data delims zps ecs len fuel (pos + 1) z.1 z.2 escape'
    else none

/-- The `cstr_tokenize_ex`: same skip and emit logic as `cstr_tokenize`; the scan
is `scanEx` starting out-of-zone with escape disarmed, and a scan that runs to
end-of-buffer sets `token_end = len` (unterminated zones tolerated). -/
def cstr_tokenize_ex (allocOk : Bool) (s : CString) (delims : List Nat)
    (zps ecs : Option (List Nat)) (start_pos : Nat) : Option CString × Nat :=
  if start_pos ≥ s.length then (none, start_pos)
  else
    let len := s.length
    let pos := skipDelims s.data delims len len start_pos
    if pos ≥ len then (none, pos)
    else
      let token_end := match scanEx s.data delims zps ecs len (len - pos) pos false 0 false with
        | some te => te
        | none => len
      if allocOk then
        let temp := (s.data.drop pos).take (token_end - pos) ++ [0]
        match cstr_create_from_chars allocOk temp with
        | (some tok, _) => (some tok, if token_end < len then token_end + 1 else len)
        | (none, _) => (none, start_pos)
      else (none, start_pos)

/-! ## The per-character precedence claimed by the spec, and the amended one

`scanExClaim` transcribes the spec's precedence sentence: a character triggers
at most one of suppression / zone-close / delimiter / zone-open / escape-arm,
and an escape character met inside a zone still arms suppression.

`charEvents`/`scanExAmended` express the precedence the source actually
implements, as an event list per character. -/

/-- The spec's claimed scanner: same state as `scanEx`, but a zone-opener
triggers only the zone entry (never also arming escape), and an escape
character inside a zone arms suppression of the next character. -/
def scanExClaim (data delims : List Nat) (zps ecs : Option (List Nat)) (len : Nat) :
    Nat → Nat → Bool → Nat → Bool → Option Nat
  | 0, _, _, _, _ => none
  | fuel + 1, pos, in_zone, zone_end, escape =>
    if pos < len then
      let c := data.getD pos 0
      let isEsc := match ecs with
        | some ec => strchrB ec c
        | none => false
      if escape then
        scanExClaim data delims zps ecs len fuel (pos + 1) in_zone zone_end false
      else if in_zone then
        if c = zone_end then scanExClaim data delims zps ecs len fuel (pos + 1) false 0 false
        else if isEsc then scanExClaim data delims zps ecs len fuel (pos + 1) in_zone zone_end true
        else scanExClaim data delims zps ecs len fuel (pos + 1) in_zone zone_end escape
      else if strchrB delims c then some pos
      else
        match zps with
        | some zp =>
          match zoneLookup zp c with
          | some close => scanExClaim data delims zps ecs len fuel (pos + 1) true close false
          | none =>
            if isEsc then scanExClaim data delims zps ecs len fuel (pos + 1) in_zone zone_end true
            else scanExClaim data delims zps ecs len fuel (pos + 1) in_zone zone_end escape
        | none =>
          if isEsc then scanExClaim data delims zps ecs len fuel (pos + 1) in_zone zone_end true
          else scanExClaim data delims zps ecs len fuel (pos + 1) in_zone zone_end escape
    else none

/-- The `cstr_tokenize_ex` as it would behave under the spec's claimed
per-character precedence. -/
def cstr_tokenize_ex_claim (allocOk : Bool) (s : CString) (delims : List Nat)
    (zps ecs : Option (List Nat)) (start_pos : Nat) : Option CString × Nat :=
  if start_pos ≥ s.length then (none, start_pos)
  else
    let len := s.length
    let pos := skipDelims s.data delims len len start_pos
    if pos ≥ len then (none, pos)
    else
      let token_end := match scanExClaim s.data delims zps ecs len (len - pos) pos false 0 false with
        | some te => te
        | none => len
      if allocOk then
        let temp := (s.data.drop pos).take (token_end - pos) ++ [0]
        match cstr_create_from_chars allocOk temp with
        | (some tok, _) => (some tok, if token_end < len then token_end + 1 else len)
        | (none, _) => (none, start_pos)
      else (none, start_pos)

/-- What a scanned character can trigger. -/
inductive ScanEvent where
  | suppress
  | zoneClose
  | delimBreak
  | zoneOpen (close : Nat)
  | armEscape
deriving DecidableEq

/-- Scanner state between characters. -/
structure ScanState where
  in_zone : Bool
  zone_end : Nat
  escape : Bool
deriving DecidableEq

/-- The events a character triggers under the source's precedence: escape
suppression first; inside a zone only the zone-close comparison; outside a
zone a delimiter breaks, and otherwise the zone-open and escape-arm tests run
independently, so both may fire for the same character. -/
def charEvents (delims : List Nat) (zps ecs : Option (List Nat)) (st : ScanState)
    (c : Nat) : List ScanEvent :=
  if st.escape then [.suppress]
  else if st.in_zone then (if c = st.zone_end then [.zoneClose] else [])
  else if strchrB delims c then [.delimBreak]
  else
    (match zps with
     | some zp =>
       match zoneLookup zp c with
       | some close => [ScanEvent.zoneOpen close]
       | none => []
     | none => []) ++
    (match ecs with
     | some ec => if strchrB ec c then [ScanEvent.armEscape] else []
     | none => [])

/-- Effect of one event on the scanner state. -/
def applyEvent (st : ScanState) : ScanEvent → ScanState
  | .suppress => { st with escape := false }
  | .zoneClose => { st with in_zone := false, zone_end := 0 }
  | .delimBreak => st
  | .zoneOpen close => { st with in_zone := true, zone_end := close }
  | .armEscape => { st with escape := true }

/-- The scan loop of `cstr_tokenize_ex` restated through `charEvents`. -/
def scanExAmended (data delims : List Nat) (zps ecs : Option (List Nat)) (len : Nat) :
    Nat → Nat → ScanState → Option Nat
  | 0, _, _ => none
  | fuel + 1, pos, st =>
    if pos < len then
      let evs := charEvents delims zps ecs st (data.getD pos 0)
      if ScanEvent.delimBreak ∈ evs then some pos
      else scanExAmended data delims zps ecs len fuel (pos + 1) (evs.foldl applyEvent st)
    else none

/-- The `cstr_tokenize_ex` with its scan expressed through `charEvents`. -/
def cstr_tokenize_ex_amended (allocOk : Bool) (s : CString) (delims : List Nat)
    (zps ecs : Option (List Nat)) (start_pos : Nat) : Option CString × Nat :=
  if start_pos ≥ s.length then (none, start_pos)
  else
    let len := s.length
    let pos := skipDelims s.data delims len len start_pos
    if pos ≥ len then (none, pos)
    else
      let token_end := match scanExAmended s.data delims zps ecs len (len - pos) pos ⟨false, 0, false⟩ with
        | some te => te
        | none => len
      if allocOk then
        let temp := (s.data.drop pos).take (token_end - pos) ++ [0]
        match cstr_create_from_chars allocOk temp with
        | (some tok, _) => (some tok, if token_end < len then token_end + 1 else len)
        | (none, _) => (none, start_pos)
      else (none, start_pos)

/-! ## Memory lemmas -/

theorem length_writeAt {l src : List Nat} {off : Nat} (h : off + src.length ≤ l.length) :
    (writeAt l off src).length = l.length := by
  unfold writeAt
  simp only [List.length_append, List.length_take, List.length_drop]
  omega

theorem getElem?_writeAt {l src : List Nat} {off : Nat} (h : off + src.length ≤ l.length)
    (j : Nat) :
    (writeAt l off src)[j]? =
      if j < off then l[j]?
      else if j < off + src.length then src[j - off]?
      else l[j]? := by
  unfold writeAt
  have hofflen : (l.take off).length = off := by
    simp only [List.length_take]; omega
  have houter : (l.take off ++ src).length = off + src.length := by
    simp only [List.length_append, hofflen]
  rcases Nat.lt_or_ge j off with hj | hj
  · rw [if_pos hj, List.getElem?_append_left (by omega),
      List.getElem?_append_left (by omega), List.getElem?_take, if_pos hj]
  · rw [if_neg (by omega)]
    rcases Nat.lt_or_ge j (off + src.length) with hj2 | hj2
    · rw [if_pos hj2, List.getElem?_append_left (by omega),
        List.getElem?_append_right (by omega), hofflen]
    · rw [if_neg (by omega), List.getElem?_append_right (by omega), houter,
        List.getElem?_drop]
      congr 1
      omega

theorem length_reallocBytes (l : List Nat) (n : Nat) : (reallocBytes l n).length = n := by
  unfold reallocBytes
  split <;> simp <;> omega

theorem getElem?_reallocBytes_of_lt {l : List Nat} {n j : Nat} (h : j < n)
    (h2 : j < l.length) : (reallocBytes l n)[j]? = l[j]? := by
  unfold reallocBytes
  split
  · rw [List.getElem?_take, if_pos h]
  · rw [List.getElem?_append_left h2]

theorem cstrlen_le_length (l : List Nat) : cstrlen l ≤ l.length :=
  List.findIdx_le_length _

/-- The first zero of `l` sits at index `n` exactly when `l[n] = 0` and no
earlier byte is zero. -/
theorem cstrlen_eq {l : List Nat} {n : Nat} (h2 : l[n]? = some 0)
    (h1 : (0 : Nat) ∉ l.take n) : cstrlen l = n := by
  induction l generalizing n with
  | nil => simp at h2
  | cons c t ih =>
    cases n with
    | zero =>
      simp only [List.getElem?_cons_zero, Option.some.injEq] at h2
      simp [cstrlen, List.findIdx_cons, h2]
    | succ n =>
      simp only [List.getElem?_cons_succ] at h2
      simp only [List.take_succ_cons, List.mem_cons, not_or] at h1
      have hc : (c == 0) = false := by
        simp only [beq_eq_false_iff_ne, ne_eq]
        exact fun hc => h1.1 hc.symm
      have := ih h2 h1.2
      simp only [cstrlen, List.findIdx_cons, hc, cond_false] at this ⊢
      omega

/-- The terminator of an exact content-plus-terminator allocation. -/
theorem terminator_at_append {l : List Nat} {n : Nat} (h : l.length = n) :
    (l ++ [0])[n]? = some 0 := by
  rw [List.getElem?_append_right (by omega)]
  simp [h]

/-! ## Terminator preservation, operation by operation -/

theorem term_create {s : CString} (h : (cstr_create true).1 = some s) : terminated s := by
  have hs : s = ⟨[0], 0, 1⟩ := by
    simpa [cstr_create] using h.symm
  subst hs; decide

theorem term_create_from_chars {d : List Nat} {s : CString}
    (h : (cstr_create_from_chars true d).1 = some s) : terminated s := by
  have hs : s = ⟨d.take (cstrlen d) ++ [0], cstrlen d, cstrlen d + 1⟩ := by
    simpa [cstr_create_from_chars, cstr_strdup] using h.symm
  subst hs
  exact terminator_at_append (by simp [List.length_take, Nat.min_eq_left (cstrlen_le_length d)])

theorem term_create_from_buffer {b : List Nat} {n : Nat} {s : CString}
    (hn : n ≤ b.length) (h : (cstr_create_from_buffer true b n).1 = some s) :
    terminated s := by
  have hs : s = ⟨b.take n ++ [0], n, n + 1⟩ := by
    simpa [cstr_create_from_buffer] using h.symm
  subst hs
  exact terminator_at_append (by simp [List.length_take, Nat.min_eq_left hn])

theorem term_create_from_cstr {src : CString} {s : CString} (hwf : wf src)
    (hz : (0 : Nat) ∉ content src) (h : (cstr_create_from_cstr true src).1 = some s) :
    terminated s := by
  obtain ⟨hcap, hlen, hterm⟩ := hwf
  have hcl : cstrlen src.data = src.length := cstrlen_eq hterm hz
  have hs : s = ⟨src.data.take (cstrlen src.data) ++ [0], src.length, src.capacity⟩ := by
    simpa [cstr_create_from_cstr, cstr_strdup] using h.symm
  subst hs
  exact terminator_at_append (by rw [hcl]; simp [List.length_take]; omega)

theorem term_resize {s : CString} {n : Nat} (hwf : wf s) (hn : s.length + 1 ≤ n) :
    terminated (cstr_resize true s n).1 := by
  obtain ⟨hcap, hlen, hterm⟩ := hwf
  show (reallocBytes s.data n)[s.length]? = some 0
  rw [getElem?_reallocBytes_of_lt (by omega) (by omega)]
  exact hterm

theorem term_shrink {s : CString} (hwf : wf s) :
    terminated (cstr_shrink_to_fit true s).1 :=
  term_resize hwf (Nat.le_refl _)

theorem term_clear {s : CString} (hwf : wf s) : terminated (cstr_clear s).1 := by
  obtain ⟨hcap, hlen, hterm⟩ := hwf
  show (memset0 s.capacity s.data)[0]? = some 0
  unfold memset0
  rw [List.getElem?_append_left (by simp [List.length_replicate]; omega)]
  exact List.getElem?_replicate_of_lt (by omega)

theorem term_push {s : CString} {c : Nat} (hwf : wf s) :
    terminated (cstr_push_back_char true s c).1 := by
  obtain ⟨hcap, hlen, hterm⟩ := hwf
  unfold cstr_push_back_char
  by_cases hgrow : s.length + 1 ≥ s.capacity
  · simp only [hgrow, if_true, cstr_resize, if_pos, if_true]
    show ((((reallocBytes s.data (s.length + 2)).set s.length c).set (s.length + 1) 0))[s.length + 1]? = some 0
    rw [List.getElem?_set_self]
    rw [List.length_set, length_reallocBytes]
    omega
  · simp only [hgrow, if_false]
    show (((s.data.set s.length c).set (s.length + 1) 0))[s.length + 1]? = some 0
    rw [List.getElem?_set_self]
    rw [List.length_set]
    omega

theorem term_pop {s : CString} (hwf : wf s) : terminated (cstr_pop_back s).1 := by
  obtain ⟨hcap, hlen, hterm⟩ := hwf
  unfold cstr_pop_back
  by_cases h0 : s.length = 0
  · simpa [h0] using hterm
  · simp only [h0, if_false]
    show ((s.data.set (s.length - 1) 0))[s.length - 1]? = some 0
    rw [List.getElem?_set_self]
    omega

/-- Shared terminator argument for the two append operations: after the copy,
the explicit terminator store lands in bounds. -/
theorem term_append_core {data' src : List Nat} {len dl : Nat}
    (hsrc : src.length ≤ dl) (hcap : len + dl + 1 ≤ data'.length) :
    ((writeAt data' len src).set (len + dl) 0)[len + dl]? = some 0 := by
  rw [List.getElem?_set_self]
  rw [length_writeAt (by omega)]
  omega

theorem term_append_chars {s : CString} {d : List Nat} (hwf : wf s) :
    terminated (cstr_append_chars true s d).1 := by
  obtain ⟨hcap, hlen, hterm⟩ := hwf
  unfold cstr_append_chars
  by_cases hgrow : s.length + cstrlen d + 1 > s.capacity
  · simp only [hgrow, if_true, cstr_resize, if_pos, if_true]
    exact term_append_core (by simp [List.length_take])
      (by rw [length_reallocBytes])
  · simp only [hgrow, if_false]
    exact term_append_core (by simp [List.length_take]) (by omega)

theorem term_append_cstr {s obj2 : CString} (hwf : wf s) :
    terminated (cstr_append_cstr true s obj2).1 := by
  obtain ⟨hcap, hlen, hterm⟩ := hwf
  unfold cstr_append_cstr
  by_cases hgrow : s.length + obj2.length + 1 > s.capacity
  · simp only [hgrow, if_true, cstr_resize, if_pos, if_true]
    exact term_append_core (by simp [List.length_take])
      (by rw [length_reallocBytes])
  · simp only [hgrow, if_false]
    exact term_append_core (by simp [List.length_take]) (by omega)

/-- Terminator argument for `cstr_insert`'s shift: the old terminator at
offset `len` moves to offset `len + 1`. -/
theorem term_insert_core {data' : List Nat} {len index c : Nat}
    (hidx : index ≤ len) (hcap : len + 2 ≤ data'.length) (hterm : data'[len]? = some 0) :
    ((writeAt data' (index + 1) ((data'.drop index).take (len - index + 1))).set index c)[len + 1]? =
      some 0 := by
  have hsrc : ((data'.drop index).take (len - index + 1)).length = len - index + 1 := by
    simp only [List.length_take, List.length_drop]
    omega
  rw [List.getElem?_set_ne (by omega)]
  rw [getElem?_writeAt (by rw [hsrc]; omega)]
  rw [if_neg (by omega), if_pos (by rw [hsrc]; omega)]
  rw [show len + 1 - (index + 1) = len - index from by omega]
  rw [List.getElem?_take, if_pos (by omega), List.getElem?_drop]
  rw [show index + (len - index) = len from by omega]
  exact hterm

theorem term_insert {s : CString} {index c : Nat} (hwf : wf s) :
    terminated (cstr_insert true s index c).1 := by
  obtain ⟨hcap, hlen, hterm⟩ := hwf
  unfold cstr_insert
  by_cases hidx : index > s.length
  · rw [if_pos hidx]
    exact hterm
  · rw [if_neg hidx]
    by_cases hgrow : s.length + 2 > s.capacity
    · simp only [hgrow, if_true, cstr_resize, if_pos, if_true]
      refine term_insert_core ?_ ?_ ?_
      · omega
      · rw [length_reallocBytes]
      · rw [getElem?_reallocBytes_of_lt (by omega) (by omega)]
        exact hterm
    · simp only [hgrow, if_false]
      refine term_insert_core ?_ ?_ hterm <;> omega

/-- Terminator argument for `cstr_erase`'s shift: the move includes the
terminator, which lands at offset `len - size'`. -/
theorem term_erase_core {data : List Nat} {len index size' : Nat}
    (h1 : index + size' ≤ len) (hterm : data[len]? = some 0) (hlen : len + 1 ≤ data.length) :
    (writeAt data index
        ((data.drop (index + size')).take (len - (index + size') + 1)))[len - size']? = some 0 := by
  have hsrc : ((data.drop (index + size')).take (len - (index + size') + 1)).length =
      len - (index + size') + 1 := by
    simp only [List.length_take, List.length_drop]
    omega
  rw [getElem?_writeAt (by rw [hsrc]; omega)]
  rw [if_neg (by omega), if_pos (by rw [hsrc]; omega)]
  rw [List.getElem?_take, if_pos (by omega), List.getElem?_drop]
  rw [show index + size' + (len - size' - index) = len from by omega]
  exact hterm

theorem term_erase {s : CString} {index n : Nat} (hwf : wf s) :
    terminated (cstr_erase s index n).1 := by
  obtain ⟨hcap, hlen, hterm⟩ := hwf
  unfold cstr_erase
  by_cases hinv : index ≥ s.length ∨ n = 0
  · rw [if_pos hinv]
    exact hterm
  · rw [if_neg hinv]
    push_neg at hinv
    by_cases hbig : n > s.length - index
    · rw [if_pos hbig]
      refine term_erase_core ?_ hterm ?_ <;> omega
    · rw [if_neg hbig]
      refine term_erase_core ?_ hterm ?_ <;> omega

theorem trimEnd_le (data : List Nat) : ∀ fuel start e, trimEnd data fuel start e ≤ e
  | 0, _, e => Nat.le_refl e
  | fuel + 1, start, e => by
    unfold trimEnd
    split
    · exact Nat.le_trans (trimEnd_le data fuel start (e - 1)) (by omega)
    · exact Nat.le_refl e

/-- Terminator argument for `cstr_trim`: the explicit terminator store lands
in bounds whether or not the kept range is moved. -/
theorem term_trim_core {data : List Nat} {start nl : Nat} (hnl : nl < data.length) :
    ((if start > 0 then writeAt data 0 ((data.drop start).take nl) else data).set nl 0)[nl]? =
      some 0 := by
  by_cases hs : start > 0
  · rw [if_pos hs, List.getElem?_set_self]
    rw [length_writeAt (by simp only [Nat.zero_add, List.length_take, List.length_drop]; omega)]
    exact hnl
  · rw [if_neg hs, List.getElem?_set_self hnl]

theorem term_trim {s : CString} (hwf : wf s) : terminated (cstr_trim s).1 := by
  obtain ⟨hcap, hlen, hterm⟩ := hwf
  by_cases h0 : s.length = 0
  · unfold cstr_trim
    rw [if_pos h0]
    exact hterm
  · have hele : trimEnd s.data s.length (trimStart s.data s.length 0 (s.length - 1))
        (s.length - 1) ≤ s.length - 1 := trimEnd_le _ _ _ _
    unfold cstr_trim
    rw [if_neg h0]
    exact term_trim_core (by split <;> omega)

theorem term_swap {ia ib : Nat} {a b : CString} (ha : terminated a) (hb : terminated b) :
    terminated (cstr_swap ia a ib b).1.1 ∧ terminated (cstr_swap ia a ib b).1.2.1 :=
  ⟨hb, ha⟩

/-- The scan loop of `cstr_tokenize_ex` agrees step by step with its
event-list restatement. -/
theorem scanEx_eq_amended (data delims : List Nat) (zps ecs : Option (List Nat)) (len : Nat) :
    ∀ fuel pos in_zone zone_end escape,
      scanEx data delims zps ecs len fuel pos in_zone zone_end escape =
        scanExAmended data delims zps ecs len fuel pos ⟨in_zone, zone_end, escape⟩ := by
  intro fuel
  induction fuel with
  | zero => intro pos iz ze esc; rfl
  | succ fuel ih =>
    intro pos iz ze esc
    unfold scanEx scanExAmended
    by_cases hp : pos < len
    · rw [if_pos hp, if_pos hp]
      cases esc with
      | true =>
        simp only [charEvents, applyEvent, List.foldl_cons, List.foldl_nil]
        simp only [if_true]
        rw [if_neg (by simp)]
        exact ih _ _ _ _
      | false =>
        cases iz with
        | true =>
          by_cases hze : data.getD pos 0 = ze
          · simp only [charEvents, applyEvent, hze, List.foldl_cons, List.foldl_nil]
            simp only [Bool.false_eq_true, if_false, if_true, if_pos rfl]
            rw [if_neg (by simp)]
            exact ih _ _ _ _
          · simp only [charEvents, hze, List.foldl_nil]
            simp only [Bool.false_eq_true, if_false, if_true, if_neg hze]
            rw [if_neg (by simp)]
            exact ih _ _ _ _
        | false =>
          by_cases hd : strchrB delims (data.getD pos 0) = true
          · simp only [charEvents, hd, Bool.false_eq_true, if_false, if_true]
            rw [if_pos (by simp)]
          · simp only [charEvents, hd, Bool.false_eq_true, if_false]
            cases zps with
            | none =>
              cases ecs with
              | none =>
                simp only [List.nil_append, List.foldl_nil]
                rw [if_neg (by simp)]
                exact ih _ _ _ _
              | some ec =>
                by_cases hb : strchrB ec (data.getD pos 0) = true
                · simp only [hb, if_true, List.nil_append, List.foldl_cons,
                    List.foldl_nil, applyEvent]
                  rw [if_neg (by simp)]
                  exact ih _ _ _ _
                · simp only [hb, Bool.false_eq_true, if_false, List.nil_append,
                    List.foldl_nil]
                  rw [if_neg (by simp)]
                  exact ih _ _ _ _
            | some zp =>
              rcases hz : zoneLookup zp (data.getD pos 0) with _ | close
              · cases ecs with
                | none =>
                  simp only [hz, List.nil_append, List.foldl_nil]
                  rw [if_neg (by simp)]
                  exact ih _ _ _ _
                | some ec =>
                  by_cases hb : strchrB ec (data.getD pos 0) = true
                  · simp only [hz, hb, if_true, List.nil_append, List.foldl_cons,
                      List.foldl_nil, applyEvent]
                    rw [if_neg (by simp)]
                    exact ih _ _ _ _
                  · simp only [hz, hb, Bool.false_eq_true, if_false, List.nil_append,
                      List.foldl_nil]
                    rw [if_neg (by simp)]
                    exact ih _ _ _ _
              · cases ecs with
                | none =>
                  simp only [hz, List.cons_append, List.nil_append, List.foldl_cons,
                    List.foldl_nil, applyEvent]
                  rw [if_neg (by simp)]
                  exact ih _ _ _ _
                | some ec =>
                  by_cases hb : strchrB ec (data.getD pos 0) = true
                  · simp only [hz, hb, if_true, List.cons_append, List.nil_append,
                      List.foldl_cons, List.foldl_nil, applyEvent]
                    rw [if_neg (by simp)]
                    exact ih _ _ _ _
                  · simp only [hz, hb, Bool.false_eq_true, if_false, List.cons_append,
                      List.nil_append, List.append_nil, List.foldl_cons, List.foldl_nil,
                      applyEvent]
                    rw [if_neg (by simp)]
                    exact ih _ _ _ _
    · rw [if_neg hp, if_neg hp]

/-! ## Tokenizer scan lemmas -/

theorem strchrB_zero (d : List Nat) : strchrB d 0 = true := by
  simp [strchrB]

theorem not_mem_take_cstrlen (l : List Nat) : (0 : Nat) ∉ l.take (cstrlen l) := by
  induction l with
  | nil => simp
  | cons c t ih =>
    by_cases hc : c = 0
    · subst hc
      simp [cstrlen, List.findIdx_cons]
    · have hb : (c == 0) = false := by simpa using hc
      simp only [cstrlen, List.findIdx_cons, hb, cond_false, List.take_succ_cons,
        List.mem_cons, not_or]
      exact ⟨fun h => hc h.symm, ih⟩

theorem cstrlen_pos {l : List Nat} {c : Nat} (h : l[0]? = some c) (hc : c ≠ 0) :
    0 < cstrlen l := by
  cases l with
  | nil => simp at h
  | cons a t =>
    simp only [List.getElem?_cons_zero, Option.some.injEq] at h
    have ha : a ≠ 0 := by rw [h]; exact hc
    have hb : (a == 0) = false := by simpa using ha
    simp [cstrlen, List.findIdx_cons, hb]

theorem scanToken_ge (data delims : List Nat) (len : Nat) :
    ∀ fuel pos, pos ≤ scanToken data delims len fuel pos
  | 0, pos => Nat.le_refl pos
  | fuel + 1, pos => by
    unfold scanToken
    split
    · exact Nat.le_trans (by omega) (scanToken_ge data delims len fuel (pos + 1))
    · exact Nat.le_refl pos

theorem scanToken_le (data delims : List Nat) (len : Nat) :
    ∀ fuel pos, pos ≤ len → scanToken data delims len fuel pos ≤ len
  | 0, pos, h => h
  | fuel + 1, pos, h => by
    unfold scanToken
    split
    · next hcond =>
      have := of_decide_eq_true (Bool.and_elim_left hcond)
      exact scanToken_le data delims len fuel (pos + 1) (by omega)
    · exact h

/-- With enough fuel, a scan that stops before `len` stopped on a
delimiter. -/
theorem scanToken_stop_delim (data delims : List Nat) (len : Nat) :
    ∀ fuel pos, len - pos ≤ fuel →
      scanToken data delims len fuel pos < len →
      strchrB delims (data.getD (scanToken data delims len fuel pos) 0) = true
  | 0, pos, hfuel, hlt => by
    unfold scanToken at hlt
    omega
  | fuel + 1, pos, hfuel, hlt => by
    unfold scanToken at hlt ⊢
    by_cases hcond : (decide (pos < len) && !strchrB delims (data.getD pos 0)) = true
    · rw [if_pos hcond] at hlt ⊢
      have hplen := of_decide_eq_true (Bool.and_elim_left hcond)
      exact scanToken_stop_delim data delims len fuel (pos + 1) (by omega) hlt
    · rw [if_neg hcond] at hlt ⊢
      simp only [Bool.and_eq_true, Bool.not_eq_true', decide_eq_true_eq, not_and] at hcond
      have := hcond hlt
      simpa using this

/-- No byte strictly inside the scanned span is a delimiter. -/
theorem scanToken_span (data delims : List Nat) (len : Nat) :
    ∀ fuel pos i, pos ≤ i → i < scanToken data delims len fuel pos →
      strchrB delims (data.getD i 0) = false
  | 0, pos, i, hge, hlt => by
    unfold scanToken at hlt
    omega
  | fuel + 1, pos, i, hge, hlt => by
    unfold scanToken at hlt
    by_cases hcond : (decide (pos < len) && !strchrB delims (data.getD pos 0)) = true
    · rw [if_pos hcond] at hlt
      rcases Nat.eq_or_lt_of_le hge with heq | hgt
      · subst heq
        simpa using Bool.and_elim_right hcond
      · exact scanToken_span data delims len fuel (pos + 1) i hgt hlt
    · rw [if_neg hcond] at hlt
      omega

theorem skipDelims_ge (data delims : List Nat) (len : Nat) :
    ∀ fuel pos, pos ≤ skipDelims data delims len fuel pos
  | 0, pos => Nat.le_refl pos
  | fuel + 1, pos => by
    unfold skipDelims
    split
    · exact Nat.le_trans (by omega) (skipDelims_ge data delims len fuel (pos + 1))
    · exact Nat.le_refl pos

/-- With enough fuel, the skip loop stops before `len` only on a
non-delimiter byte. -/
theorem skipDelims_stop (data delims : List Nat) (len : Nat) :
    ∀ fuel pos, len - pos ≤ fuel →
      skipDelims data delims len fuel pos < len →
      strchrB delims (data.getD (skipDelims data delims len fuel pos) 0) = false
  | 0, pos, hfuel, hlt => by
    unfold skipDelims at hlt
    omega
  | fuel + 1, pos, hfuel, hlt => by
    unfold skipDelims at hlt ⊢
    by_cases hcond : (decide (pos < len) && strchrB delims (data.getD pos 0)) = true
    · rw [if_pos hcond] at hlt ⊢
      have hplen := of_decide_eq_true (Bool.and_elim_left hcond)
      exact skipDelims_stop data delims len fuel (pos + 1) (by omega) hlt
    · rw [if_neg hcond] at hlt ⊢
      simp only [Bool.and_eq_true, decide_eq_true_eq, not_and] at hcond
      simpa using hcond hlt

/-- If the scan makes one step, the result is past `pos`. -/
theorem scanToken_advances {data delims : List Nat} {len fuel pos : Nat}
    (hp : pos < len) (hd : strchrB delims (data.getD pos 0) = false) (hf : 1 ≤ fuel) :
    pos + 1 ≤ scanToken data delims len fuel pos := by
  obtain ⟨fuel', rfl⟩ : ∃ fuel', fuel = fuel' + 1 := ⟨fuel - 1, by omega⟩
  unfold scanToken
  rw [if_pos (by rw [hd]; simp [hp])]
  exact scanToken_ge data delims len fuel' (pos + 1)

/-- A byte read as nonzero through `getD` is inside the allocation. -/
theorem lt_length_of_getD_ne_zero {l : List Nat} {i : Nat} (h : l.getD i 0 ≠ 0) :
    i < l.length := by
  by_contra hge
  rw [List.getD_eq_getElem?_getD, List.getElem?_eq_none (by omega)] at h
  simp at h

/-- Everything C5 and C10 need about a successful `cstr_tokenize` call: the
emitted token is nonempty, its content contains no zero byte, and the cursor
lands just past the delimiter that ended the token or at end-of-buffer. -/
theorem tokenize_some_props {s : CString} {d : List Nat} {p p' : Nat} {tok : CString}
    (h : cstr_tokenize true s d p = (some tok, p')) :
    0 < tok.length ∧ (0 : Nat) ∉ content tok ∧
    ((∃ te, te < s.length ∧ strchrB d (s.data.getD te 0) = true ∧ p' = te + 1) ∨
      p' = s.length) := by
  unfold cstr_tokenize at h
  by_cases hg : p ≥ s.length
  · rw [if_pos hg] at h
    simp at h
  · rw [if_neg hg] at h
    simp only [cstr_create_from_chars, cstr_strdup, if_true] at h
    by_cases hge : skipDelims s.data d s.length s.length p ≥ s.length
    · rw [if_pos hge] at h
      simp at h
    · rw [if_neg hge] at h
      set pos := skipDelims s.data d s.length s.length p with hpos
      set te := scanToken s.data d s.length (s.length - pos) pos with hte
      set temp := (s.data.drop pos).take (te - pos) ++ [0] with htemp
      obtain ⟨h1, h2⟩ := Prod.mk.injEq _ _ _ _ ▸ h
      obtain rfl : tok = ⟨temp.take (cstrlen temp) ++ [0], cstrlen temp, cstrlen temp + 1⟩ :=
        (Option.some.inj h1).symm
      have hplt : pos < s.length := by omega
      have hnd : strchrB d (s.data.getD pos 0) = false :=
        skipDelims_stop s.data d s.length s.length p (by omega) hplt
      have hb : s.data.getD pos 0 ≠ 0 := by
        intro h0
        rw [h0, strchrB_zero] at hnd
        exact Bool.true_eq_false ▸ hnd
      have hplen : pos < s.data.length := lt_length_of_getD_ne_zero hb
      have hte1 : pos + 1 ≤ te := scanToken_advances hplt hnd (by omega)
      have hspan : 0 < ((s.data.drop pos).take (te - pos)).length := by
        simp only [List.length_take, List.length_drop]
        omega
      have htemp0 : temp[0]? = some (s.data.getD pos 0) := by
        rw [htemp, List.getElem?_append_left hspan, List.getElem?_take,
          if_pos (by omega), List.getElem?_drop, Nat.add_zero,
          List.getD_eq_getElem?_getD]
        cases hx : s.data[pos]? with
        | none => rw [List.getElem?_eq_none_iff] at hx; omega
        | some b => rfl
      have hcl : 0 < cstrlen temp := cstrlen_pos htemp0 hb
      refine ⟨hcl, ?_, ?_⟩
      · show (0 : Nat) ∉ (temp.take (cstrlen temp) ++ [0]).take (cstrlen temp)
        have hlen : (temp.take (cstrlen temp)).length = cstrlen temp := by
          simp only [List.length_take]
          exact Nat.min_eq_left (cstrlen_le_length temp)
        have hteq := List.take_left (temp.take (cstrlen temp)) ([0] : List Nat)
        rw [hlen] at hteq
        rw [hteq]
        exact not_mem_take_cstrlen temp
      · by_cases hlt : te < s.length
        · left
          refine ⟨te, hlt, ?_, ?_⟩
          · exact scanToken_stop_delim s.data d s.length (s.length - pos) pos
              (Nat.le_refl _) hlt
          · rw [← h2, if_pos hlt]
        · right
          rw [← h2, if_neg hlt]

/-! ## Claim theorems -/

/-- Claim C1: `cstr_create_from_cstr` is documented to return `false` when
duplicating the source fails to allocate, but the source never checks the
`cstr_strdup` result: with the allocation failing it still returns `true`,
leaving the destination with a `NULL` `data` pointer and the copied
length/capacity fields, indistinguishable from a successful construction by
the return value.  On a successful allocation (source without embedded zero
bytes) the copy is byte-for-byte with the same capacity field. -/
theorem c1_copy_ctor_ignores_alloc_failure :
    cstr_create_from_cstr false ⟨[0], 0, 1⟩ = (none, true) ∧
    cstr_create_from_cstr true ⟨[97, 98, 0], 2, 3⟩ = (some ⟨[97, 98, 0], 2, 3⟩, true) := by
  constructor <;> rfl

/-- Claim C6: `cstr_trim` is documented to return `true` only if it modified
the string, but on the one-byte string `x` (no whitespace anywhere) it removes
nothing and still returns `true`; on the empty string it returns `false`.
The content behaviour itself matches the spec's examples: `" x "` trims to
`"x"` and a whitespace-only string trims to the empty string. -/
theorem c6_trim_result_flag_eval :
    cstr_trim ⟨[120, 0], 1, 2⟩ = (⟨[120, 0], 1, 2⟩, true) ∧
    cstr_trim ⟨[0], 0, 1⟩ = (⟨[0], 0, 1⟩, false) ∧
    cstr_trim ⟨[32, 120, 32, 0], 3, 4⟩ = (⟨[120, 0, 32, 0], 1, 4⟩, true) ∧
    content (cstr_trim ⟨[32, 120, 32, 0], 3, 4⟩).1 = [120] ∧
    cstr_trim ⟨[32, 32, 0], 2, 3⟩ = (⟨[0, 32, 0], 0, 3⟩, true) ∧
    content (cstr_trim ⟨[32, 32, 0], 2, 3⟩).1 = [] := by
  refine ⟨rfl, rfl, rfl, rfl, rfl, rfl⟩

/-- Claim C8: with the string `abcd` erased at `(0, 2)` the buffer holds
`cd` (length 2) with a stale `d` at offset 3; `cstr_get` at the invalid
index 3 performs no bounds check and returns that stale byte instead of the
sentinel 0, and `cstr_back` on an empty string computes `length - 1` in
`size_t`, wrapping to `2^64 - 1` and reading outside the allocation
(`none`), while `cstr_front` on the empty string returns 0 only because it
happens to read the terminator. -/
theorem c8_get_back_unchecked_eval :
    (cstr_erase ⟨[97, 98, 99, 100, 0], 4, 5⟩ 0 2).1 = ⟨[99, 100, 0, 100, 0], 2, 5⟩ ∧
    cstr_get (cstr_erase ⟨[97, 98, 99, 100, 0], 4, 5⟩ 0 2).1 3 = some 100 ∧
    (cstr_erase ⟨[97, 98, 99, 100, 0], 4, 5⟩ 0 2).1.length ≤ 3 ∧
    cstr_back ⟨[0], 0, 1⟩ = none ∧
    cstr_front ⟨[0], 0, 1⟩ = some 0 := by
  refine ⟨rfl, rfl, by decide, ?_, rfl⟩
  show ([0] : List Nat)[(0 + (SZ - 1)) % SZ]? = none
  norm_num [SZ]

/-- Claim C9 counterexample: the lock-acquisition order of `cstr_swap` is the
argument order, not a fixed instance-independent order — swapping the same
pair with the arguments flipped acquires the two locks in the opposite
order. -/
theorem c9_lock_order_counterexample :
    lockOrder (cstr_swap 1 ⟨[0], 0, 1⟩ 2 ⟨[0], 0, 1⟩).2 = [1, 2] ∧
    lockOrder (cstr_swap 2 ⟨[0], 0, 1⟩ 1 ⟨[0], 0, 1⟩).2 = [2, 1] ∧
    lockOrder (cstr_swap 1 ⟨[0], 0, 1⟩ 2 ⟨[0], 0, 1⟩).2 ≠
      lockOrder (cstr_swap 2 ⟨[0], 0, 1⟩ 1 ⟨[0], 0, 1⟩).2 := by
  refine ⟨rfl, rfl, by decide⟩

/-- Claim C9 amended: `cstr_swap` exchanges the two objects' storage, length
and capacity wholesale under both locks, but the locks are acquired in
argument order (first argument's lock, then second's) and released in
reverse, with no address-based ordering. -/
theorem c9_swap_exchanges_in_argument_order (ia ib : Nat) (a b : CString) :
    (cstr_swap ia a ib b).1.1 = b ∧
    (cstr_swap ia a ib b).1.2.1 = a ∧
    (cstr_swap ia a ib b).1.2.2 = true ∧
    (cstr_swap ia a ib b).2 =
      [LockEvent.lock ia, LockEvent.lock ib, LockEvent.unlock ib, LockEvent.unlock ia] ∧
    lockOrder (cstr_swap ia a ib b).2 = [ia, ib] := by
  refine ⟨?_, ?_, rfl, rfl, rfl⟩ <;> [cases b; cases a] <;> rfl

/-- Claim C2 counterexample: `cstr_resize` of the string `ab` down to one
byte completes (returns `true`) but leaves `length = 2` pointing past the
one-byte allocation, so no terminator is stored at offset `length`; and
`cstr_create_from_cstr` from a buffer-built source whose content starts with
a zero byte completes yet produces an object whose allocation (`strdup`
stopped at the embedded zero) is too short to hold a byte at offset
`length`. -/
theorem c2_terminator_counterexample :
    (cstr_resize true ⟨[97, 98, 0], 2, 3⟩ 1).2 = true ∧
    ¬ terminated (cstr_resize true ⟨[97, 98, 0], 2, 3⟩ 1).1 ∧
    cstr_create_from_buffer true [0, 97] 2 = (some ⟨[0, 97, 0], 2, 3⟩, true) ∧
    cstr_create_from_cstr true ⟨[0, 97, 0], 2, 3⟩ = (some ⟨[0], 2, 3⟩, true) ∧
    ¬ terminated (⟨[0], 2, 3⟩ : CString) := by
  refine ⟨rfl, by decide, rfl, rfl, by decide⟩

/-- Claim C2 amended: after every completed CString operation — construction
(empty, from chars, from a buffer of `n ≤ |buffer|` bytes, copy-construction
from a well-formed source without embedded zero bytes), resize to a new size
of at least `length + 1`, shrink, clear, append (chars or CString), push, pop,
insert, erase, trim, and swap — the byte stored at offset `length` is the zero
terminator, provided the object operated on was well-formed. -/
theorem c2_terminator_after_each_operation :
    (∀ s : CString, (cstr_create true).1 = some s → terminated s) ∧
    (∀ (d : List Nat) (s : CString), (cstr_create_from_chars true d).1 = some s → terminated s) ∧
    (∀ (b : List Nat) (n : Nat) (s : CString), n ≤ b.length →
      (cstr_create_from_buffer true b n).1 = some s → terminated s) ∧
    (∀ src s : CString, wf src → (0 : Nat) ∉ content src →
      (cstr_create_from_cstr true src).1 = some s → terminated s) ∧
    (∀ (s : CString) (n : Nat), wf s → s.length + 1 ≤ n →
      terminated (cstr_resize true s n).1) ∧
    (∀ s : CString, wf s → terminated (cstr_shrink_to_fit true s).1) ∧
    (∀ s : CString, wf s → terminated (cstr_clear s).1) ∧
    (∀ (s : CString) (d : List Nat), wf s → terminated (cstr_append_chars true s d).1) ∧
    (∀ s t : CString, wf s → terminated (cstr_append_cstr true s t).1) ∧
    (∀ (s : CString) (c : Nat), wf s → terminated (cstr_push_back_char true s c).1) ∧
    (∀ s : CString, wf s → terminated (cstr_pop_back s).1) ∧
    (∀ (s : CString) (i c : Nat), wf s → terminated (cstr_insert true s i c).1) ∧
    (∀ (s : CString) (i n : Nat), wf s → terminated (cstr_erase s i n).1) ∧
    (∀ s : CString, wf s → terminated (cstr_trim s).1) ∧
    (∀ (ia ib : Nat) (a b : CString), terminated a → terminated b →
      terminated (cstr_swap ia a ib b).1.1 ∧ terminated (cstr_swap ia a ib b).1.2.1) := by
  refine ⟨fun s h => term_create h,
    fun d s h => term_create_from_chars h,
    fun b n s hn h => term_create_from_buffer hn h,
    fun src s hwf hz h => term_create_from_cstr hwf hz h,
    fun s n hwf hn => term_resize hwf hn,
    fun s hwf => term_shrink hwf,
    fun s hwf => term_clear hwf,
    fun s d hwf => term_append_chars hwf,
    fun s t hwf => term_append_cstr hwf,
    fun s c hwf => term_push hwf,
    fun s hwf => term_pop hwf,
    fun s i c hwf => term_insert hwf,
    fun s i n hwf => term_erase hwf,
    fun s hwf => term_trim hwf,
    fun ia ib a b ha hb => term_swap ha hb⟩

/-- Witness for C2 amended: the terminator invariant instantiated on concrete
runs — push `b` onto `a`, then pop it, erase inside `abcd`, and trim
`" x "`. -/
theorem c2_terminator_witness :
    wf ⟨[97, 0], 1, 2⟩ ∧
    terminated (cstr_push_back_char true ⟨[97, 0], 1, 2⟩ 98).1 ∧
    terminated (cstr_pop_back ⟨[97, 98, 0], 2, 3⟩).1 ∧
    terminated (cstr_erase ⟨[97, 98, 99, 100, 0], 4, 5⟩ 1 2).1 ∧
    terminated (cstr_trim ⟨[32, 120, 32, 0], 3, 4⟩).1 :=
  ⟨by decide,
   (c2_terminator_after_each_operation.2.2.2.2.2.2.2.2.2.1) ⟨[97, 0], 1, 2⟩ 98 (by decide),
   (c2_terminator_after_each_operation.2.2.2.2.2.2.2.2.2.2.1) ⟨[97, 98, 0], 2, 3⟩ (by decide),
   (c2_terminator_after_each_operation.2.2.2.2.2.2.2.2.2.2.2.2.1) ⟨[97, 98, 99, 100, 0], 4, 5⟩ 1 2 (by decide),
   (c2_terminator_after_each_operation.2.2.2.2.2.2.2.2.2.2.2.2.2.1) ⟨[32, 120, 32, 0], 3, 4⟩ (by decide)⟩

/-- Claim C3 counterexample: on `ab,x` with delimiter `,`, zone pair `ab`
and escape set `a`, the opener `a` (also an escape character) both enters the
zone and arms escape, so the escape then swallows the closer `b` and the
token runs to end-of-buffer — while under the claimed at-most-one precedence
the scan would close the zone at `b` and break at the comma.  On `(\)x,y`
with zone pair `()` and escape `\`, the `\` inside the zone does not arm
escape, so `)` closes the zone and the comma ends the token — while under
the claimed precedence the escape would swallow `)` and the token would run
to end-of-buffer.  Either run already distinguishes `cstr_tokenize_ex` from
the claimed scanner. -/
theorem c3_precedence_counterexample :
    cstr_tokenize_ex true ⟨[97, 98, 44, 120, 0], 4, 5⟩ [44] (some [97, 98]) (some [97]) 0 =
      (some ⟨[97, 98, 44, 120, 0], 4, 5⟩, 4) ∧
    cstr_tokenize_ex_claim true ⟨[97, 98, 44, 120, 0], 4, 5⟩ [44] (some [97, 98]) (some [97]) 0 =
      (some ⟨[97, 98, 0], 2, 3⟩, 3) ∧
    cstr_tokenize_ex true ⟨[97, 98, 44, 120, 0], 4, 5⟩ [44] (some [97, 98]) (some [97]) 0 ≠
      cstr_tokenize_ex_claim true ⟨[97, 98, 44, 120, 0], 4, 5⟩ [44] (some [97, 98]) (some [97]) 0 ∧
    cstr_tokenize_ex true ⟨[40, 92, 41, 120, 44, 121, 0], 6, 7⟩ [44] (some [40, 41]) (some [92]) 0 =
      (some ⟨[40, 92, 41, 120, 0], 4, 5⟩, 5) ∧
    cstr_tokenize_ex_claim true ⟨[40, 92, 41, 120, 44, 121, 0], 6, 7⟩ [44] (some [40, 41]) (some [92]) 0 =
      (some ⟨[40, 92, 41, 120, 44, 121, 0], 6, 7⟩, 6) := by
  refine ⟨rfl, rfl, by decide, rfl, rfl⟩

/-- Claim C3 amended: the per-character precedence of `cstr_tokenize_ex` is:
escape suppression first; then, inside a zone, only the zone-close comparison
(in particular an escape character inside a zone does not arm suppression);
then, outside a zone, the delimiter check breaks the scan, and otherwise the
zone-open check and the escape-char check both run — they are not mutually
exclusive, so a character that is both a zone-opener and an escape character
enters the zone and also arms suppression of the next character.  This is
stated as: the tokenizer equals its restatement through the per-character
event list `charEvents`, which encodes exactly that precedence. -/
theorem c3_amended_precedence (allocOk : Bool) (s : CString) (delims : List Nat)
    (zps ecs : Option (List Nat)) (start_pos : Nat) :
    cstr_tokenize_ex allocOk s delims zps ecs start_pos =
      cstr_tokenize_ex_amended allocOk s delims zps ecs start_pos := by
  unfold cstr_tokenize_ex cstr_tokenize_ex_amended
  simp only [scanEx_eq_amended]

/-- Claim C4: tokenizing `Hello, "my 'world!'"` with delimiter space, zone
pair double-quote/double-quote and escape backslash yields exactly the token
`Hello,` (cursor 7), then the token `"my 'world!'"` with the quotes included
(cursor at end-of-buffer, 20), and the next call reports exhaustion. -/
theorem c4_example_run :
    cstr_create_from_chars true
        [72, 101, 108, 108, 111, 44, 32, 34, 109, 121, 32, 39, 119, 111, 114, 108, 100, 33, 39, 34] =
      (some ⟨[72, 101, 108, 108, 111, 44, 32, 34, 109, 121, 32, 39, 119, 111, 114, 108, 100, 33, 39, 34, 0],
        20, 21⟩, true) ∧
    cstr_tokenize_ex true
        ⟨[72, 101, 108, 108, 111, 44, 32, 34, 109, 121, 32, 39, 119, 111, 114, 108, 100, 33, 39, 34, 0], 20, 21⟩
        [32] (some [34, 34]) (some [92]) 0 =
      (some ⟨[72, 101, 108, 108, 111, 44, 0], 6, 7⟩, 7) ∧
    cstr_tokenize_ex true
        ⟨[72, 101, 108, 108, 111, 44, 32, 34, 109, 121, 32, 39, 119, 111, 114, 108, 100, 33, 39, 34, 0], 20, 21⟩
        [32] (some [34, 34]) (some [92]) 7 =
      (some ⟨[34, 109, 121, 32, 39, 119, 111, 114, 108, 100, 33, 39, 34, 0], 13, 14⟩, 20) ∧
    cstr_tokenize_ex true
        ⟨[72, 101, 108, 108, 111, 44, 32, 34, 109, 121, 32, 39, 119, 111, 114, 108, 100, 33, 39, 34, 0], 20, 21⟩
        [32] (some [34, 34]) (some [92]) 20 =
      (none, 20) := by
  refine ⟨rfl, rfl, rfl, rfl⟩

/-! ## Content-level characterisation of erase and insert -/

theorem take_reallocBytes {l : List Nat} {size n : Nat} (h1 : n ≤ size) (h2 : n ≤ l.length) :
    (reallocBytes l size).take n = l.take n := by
  unfold reallocBytes
  split
  · rw [List.take_take, Nat.min_eq_left h1]
  · rw [List.take_append_of_le_length h2]

/-- The state written by the successful path of `cstr_insert`, characterised
at the content level: well-formed, one byte longer, with the byte spliced in
at `index`. -/
theorem insert_branch {data' : List Nat} {cap' len index c : Nat}
    (hidx : index ≤ len) (hlen2 : len + 2 ≤ data'.length)
    (hterm : data'[len]? = some 0) (hcap : cap' = data'.length) :
    wf ⟨(writeAt data' (index + 1) ((data'.drop index).take (len - index + 1))).set index c,
        len + 1, cap'⟩ ∧
    content ⟨(writeAt data' (index + 1) ((data'.drop index).take (len - index + 1))).set index c,
        len + 1, cap'⟩ =
      (data'.take len).take index ++ c :: (data'.take len).drop index := by
  have hsrc : ((data'.drop index).take (len - index + 1)).length = len - index + 1 := by
    simp only [List.length_take, List.length_drop]
    omega
  have hwb : index + 1 + ((data'.drop index).take (len - index + 1)).length ≤ data'.length := by
    rw [hsrc]; omega
  have hreslen :
      ((writeAt data' (index + 1) ((data'.drop index).take (len - index + 1))).set index c).length
        = data'.length := by
    rw [List.length_set, length_writeAt hwb]
  have hres : ∀ j : Nat,
      ((writeAt data' (index + 1) ((data'.drop index).take (len - index + 1))).set index c)[j]? =
        if j < index then data'[j]?
        else if j = index then some c
        else if j < len + 2 then data'[j - 1]?
        else data'[j]? := by
    intro j
    by_cases hj : j = index
    · subst hj
      rw [if_neg (by omega), if_pos rfl, List.getElem?_set_self (by rw [length_writeAt hwb]; omega)]
    · rw [List.getElem?_set_ne (fun hh => hj hh.symm), getElem?_writeAt hwb]
      by_cases hj1 : j < index
      · rw [if_pos (by omega), if_pos hj1]
      · rw [if_neg (by omega), if_neg hj1, if_neg hj]
        by_cases hj2 : j < len + 2
        · rw [if_pos (by omega), if_pos hj2, List.getElem?_take, if_pos (by omega),
            List.getElem?_drop]
          congr 1
          omega
        · rw [if_neg (by omega), if_neg hj2]
  constructor
  · refine ⟨by rw [hcap, hreslen], by show len + 1 + 1 ≤ cap'; omega, ?_⟩
    show _ = some 0
    rw [hres (len + 1), if_neg (by omega), if_neg (by omega), if_pos (by omega)]
    simpa using hterm
  · show List.take (len + 1) _ = _
    apply List.ext_getElem?_iff.mpr
    intro j
    rw [List.getElem?_take]
    have hA : ((data'.take len).take index).length = index := by
      simp only [List.length_take]
      omega
    by_cases hj0 : j < index
    · rw [if_pos (by omega), hres j, if_pos hj0,
        List.getElem?_append_left (by omega),
        List.getElem?_take, if_pos hj0, List.getElem?_take, if_pos (by omega)]
    · by_cases hj1 : j = index
      · subst hj1
        rw [if_pos (by omega), hres j, if_neg (by omega), if_pos rfl,
          List.getElem?_append_right (by omega), hA]
        simp
      · by_cases hj2 : j < len + 1
        · rw [if_pos hj2, hres j, if_neg hj0, if_neg hj1, if_pos (by omega),
            List.getElem?_append_right (by omega), hA]
          have : j - index = (j - index - 1) + 1 := by omega
          rw [this, List.getElem?_cons_succ, List.getElem?_drop, List.getElem?_take,
            if_pos (by omega)]
          congr 1
          omega
        · rw [if_neg hj2, Eq.comm, List.getElem?_eq_none]
          simp only [List.length_append, List.length_cons, List.length_drop, hA,
            List.length_take]
          omega

/-- The `cstr_insert` at a valid index with the allocation oracle granting:
succeeds, stays well-formed, and splices the byte into the content. -/
theorem insert_ok {s : CString} {index c : Nat} (hwf : wf s) (hidx : index ≤ s.length) :
    (cstr_insert true s index c).2 = true ∧
    wf (cstr_insert true s index c).1 ∧
    (cstr_insert true s index c).1.length = s.length + 1 ∧
    content (cstr_insert true s index c).1 =
      (content s).take index ++ c :: (content s).drop index := by
  obtain ⟨hcap, hlen, hterm⟩ := hwf
  unfold cstr_insert
  rw [if_neg (by omega)]
  by_cases hgrow : s.length + 2 > s.capacity
  · simp only [hgrow, if_true, cstr_resize, if_pos, if_true]
    have h1 : s.length + 2 ≤ (reallocBytes s.data (s.length + 2)).length := by
      rw [length_reallocBytes]
    have h2 : (reallocBytes s.data (s.length + 2))[s.length]? = s.data[s.length]? :=
      getElem?_reallocBytes_of_lt (by omega) (by omega)
    have hbr := @insert_branch (reallocBytes s.data (s.length + 2)) (s.length + 2)
      s.length index c hidx h1 (by rw [h2]; exact hterm)
      (length_reallocBytes _ _).symm
    have h3 : (reallocBytes s.data (s.length + 2)).take s.length = s.data.take s.length :=
      take_reallocBytes (by omega) (by omega)
    refine ⟨trivial, hbr.1, trivial, ?_⟩
    rw [hbr.2, h3]
    rfl
  · simp only [hgrow, if_false]
    have hbr := @insert_branch s.data s.capacity s.length index c
      hidx (by omega) hterm hcap
    exact ⟨rfl, hbr.1, rfl, hbr.2⟩

/-- The `cstr_erase` with a valid index and a positive in-bounds count: succeeds,
stays well-formed, and removes exactly the bytes `[index, index + n)` from
the content. -/
theorem erase_ok {s : CString} {index n : Nat} (hwf : wf s) (hidx : index < s.length)
    (hn : 1 ≤ n) (hbound : index + n ≤ s.length) :
    (cstr_erase s index n).2 = true ∧
    wf (cstr_erase s index n).1 ∧
    (cstr_erase s index n).1.length = s.length - n ∧
    (cstr_erase s index n).1.capacity = s.capacity ∧
    content (cstr_erase s index n).1 =
      (content s).take index ++ (content s).drop (index + n) := by
  obtain ⟨hcap, hlen, hterm⟩ := hwf
  unfold cstr_erase
  rw [if_neg (by omega), if_neg (by omega : ¬ n > s.length - index)]
  have hsrc : ((s.data.drop (index + n)).take (s.length - (index + n) + 1)).length =
      s.length - (index + n) + 1 := by
    simp only [List.length_take, List.length_drop]
    omega
  have hwb : index + ((s.data.drop (index + n)).take (s.length - (index + n) + 1)).length ≤
      s.data.length := by
    rw [hsrc]; omega
  refine ⟨rfl,
    ⟨by show s.capacity = (writeAt s.data index
          ((s.data.drop (index + n)).take (s.length - (index + n) + 1))).length
        rw [length_writeAt hwb]; exact hcap,
     by show s.length - n + 1 ≤ s.capacity; omega, ?_⟩, rfl, rfl, ?_⟩
  · show _ = some 0
    have := @term_erase_core s.data s.length index n (by omega) hterm (by omega)
    exact this
  · show List.take (s.length - n) _ = _
    simp only [content]
    apply List.ext_getElem?_iff.mpr
    intro j
    rw [List.getElem?_take]
    have hA : ((s.data.take s.length).take index).length = index := by
      simp only [List.length_take]
      omega
    by_cases hj0 : j < index
    · rw [if_pos (by omega), getElem?_writeAt hwb, if_pos hj0,
        List.getElem?_append_left (by omega), List.getElem?_take, if_pos hj0,
        List.getElem?_take, if_pos (by omega)]
    · by_cases hj1 : j < s.length - n
      · rw [if_pos hj1, getElem?_writeAt hwb, if_neg (by omega), if_pos (by rw [hsrc]; omega),
          List.getElem?_take, if_pos (by omega), List.getElem?_drop,
          List.getElem?_append_right (by omega), hA, List.getElem?_drop,
          List.getElem?_take, if_pos (by omega)]
      · rw [if_neg hj1, Eq.comm, List.getElem?_eq_none]
        simp only [List.length_append, List.length_drop, List.length_take]
        omega

/-- Re-insert `bytes` one at a time at the fixed position `index` with
`cstr_insert` (rightmost byte first, so the block ends up in source order). -/
def reinsert (s : CString) (index : Nat) (bytes : List Nat) : CString :=
  bytes.foldr (fun b acc => (cstr_insert true acc index b).1) s

theorem length_content {s : CString} (hwf : wf s) : (content s).length = s.length := by
  obtain ⟨hcap, hlen, _⟩ := hwf
  simp only [content, List.length_take]
  omega

theorem reinsert_ok {index : Nat} :
    ∀ (bytes : List Nat) (s : CString), wf s → index ≤ s.length →
      wf (reinsert s index bytes) ∧
      (reinsert s index bytes).length = s.length + bytes.length ∧
      content (reinsert s index bytes) =
        (content s).take index ++ bytes ++ (content s).drop index
  | [], s, hwf, hidx => by
    refine ⟨hwf, rfl, ?_⟩
    show content s = (content s).take index ++ [] ++ (content s).drop index
    rw [List.append_nil, List.take_append_drop]
  | b :: bs, s, hwf, hidx => by
    obtain ⟨hwfr, hlenr, hcontr⟩ := reinsert_ok bs s hwf hidx
    have hidxr : index ≤ (reinsert s index bs).length := by omega
    obtain ⟨_, hwfi, hleni, hconti⟩ := @insert_ok (reinsert s index bs) index b hwfr hidxr
    have hAlen : ((content s).take index).length = index := by
      rw [List.length_take, Nat.min_eq_left (by rw [length_content hwf]; omega)]
    refine ⟨hwfi,
      by show (cstr_insert true (reinsert s index bs) index b).1.length = s.length + (b :: bs).length
         rw [hleni, hlenr]
         simp only [List.length_cons]
         omega, ?_⟩
    show content (cstr_insert true (reinsert s index bs) index b).1 = _
    rw [hconti, hcontr]
    have htake : ((content s).take index ++ bs ++ (content s).drop index).take index =
        (content s).take index := by
      rw [List.append_assoc, List.take_append_of_le_length (by omega),
        List.take_take, Nat.min_self]
    have hdrop : ((content s).take index ++ bs ++ (content s).drop index).drop index =
        bs ++ (content s).drop index := by
      rw [List.append_assoc, List.drop_append_of_le_length (by omega),
        List.drop_eq_nil_of_le (by omega), List.nil_append]
    rw [htake, hdrop]
    simp

/-- Claim C7: for every well-formed buffer and every valid `(index, count)`
with `index < length`, `1 ≤ count` and `index + count ≤ length`, erasing
`count` bytes at `index` and then re-inserting exactly the removed bytes at
the same index via `cstr_insert`, one byte at a time, restores the original
content byte-for-byte. -/
theorem c7_erase_insert_round_trip (s : CString) (index n : Nat) (hwf : wf s)
    (hidx : index < s.length) (hn : 1 ≤ n) (hbound : index + n ≤ s.length) :
    (cstr_erase s index n).2 = true ∧
    content (reinsert (cstr_erase s index n).1 index (((content s).drop index).take n)) =
      content s := by
  obtain ⟨h2, hwf', hlen', _, hcont'⟩ := erase_ok hwf hidx hn hbound
  refine ⟨h2, ?_⟩
  have hidx' : index ≤ (cstr_erase s index n).1.length := by omega
  obtain ⟨_, _, hcontR⟩ := reinsert_ok (((content s).drop index).take n) _ hwf' hidx'
  rw [hcontR, hcont']
  have hclen : (content s).length = s.length := length_content hwf
  have hAlen : ((content s).take index).length = index := by
    rw [List.length_take, Nat.min_eq_left (by omega)]
  have htake : ((content s).take index ++ (content s).drop (index + n)).take index =
      (content s).take index := by
    rw [List.take_append_of_le_length (by omega), List.take_take, Nat.min_self]
  have hdrop : ((content s).take index ++ (content s).drop (index + n)).drop index =
      (content s).drop (index + n) := by
    rw [List.drop_append_of_le_length (by omega),
      List.drop_eq_nil_of_le (by omega), List.nil_append]
  rw [htake, hdrop]
  have hsplit : ((content s).drop index).take n ++ (content s).drop (index + n) =
      (content s).drop index := by
    have := List.take_append_drop n ((content s).drop index)
    rw [List.drop_drop] at this
    exact this
  rw [List.append_assoc, hsplit, List.take_append_drop]

/-- Witness for C7: the round trip on `abcd`, erasing two bytes at index 1
and re-inserting them. -/
theorem c7_erase_insert_round_trip_witness :
    (cstr_erase ⟨[97, 98, 99, 100, 0], 4, 5⟩ 1 2).2 = true ∧
    content (reinsert (cstr_erase ⟨[97, 98, 99, 100, 0], 4, 5⟩ 1 2).1 1
        (((content ⟨[97, 98, 99, 100, 0], 4, 5⟩).drop 1).take 2)) =
      content ⟨[97, 98, 99, 100, 0], 4, 5⟩ :=
  c7_erase_insert_round_trip ⟨[97, 98, 99, 100, 0], 4, 5⟩ 1 2 (by decide) (by decide)
    (by decide) (by decide)

/-- Claim C5: on `a,b,,c` with delimiter `,` the simple tokenizer emits
exactly `a`, `b`, `c` and then reports exhaustion, and in general an emitted
token is never empty (runs of consecutive delimiters are skipped) and the
cursor advances to just past the delimiter that ended the token, or to
end-of-buffer when no delimiter follows. -/
theorem c5_simple_tokenize :
    cstr_tokenize true ⟨[97, 44, 98, 44, 44, 99, 0], 6, 7⟩ [44] 0 = (some ⟨[97, 0], 1, 2⟩, 2) ∧
    cstr_tokenize true ⟨[97, 44, 98, 44, 44, 99, 0], 6, 7⟩ [44] 2 = (some ⟨[98, 0], 1, 2⟩, 4) ∧
    cstr_tokenize true ⟨[97, 44, 98, 44, 44, 99, 0], 6, 7⟩ [44] 4 = (some ⟨[99, 0], 1, 2⟩, 6) ∧
    cstr_tokenize true ⟨[97, 44, 98, 44, 44, 99, 0], 6, 7⟩ [44] 6 = (none, 6) ∧
    (∀ (s : CString) (d : List Nat) (p p' : Nat) (tok : CString),
      cstr_tokenize true s d p = (some tok, p') →
      0 < tok.length ∧
      ((∃ te, te < s.length ∧ strchrB d (s.data.getD te 0) = true ∧ p' = te + 1) ∨
        p' = s.length)) := by
  refine ⟨rfl, rfl, rfl, rfl, fun s d p p' tok h => ?_⟩
  obtain ⟨h1, _, h3⟩ := tokenize_some_props h
  exact ⟨h1, h3⟩

/-- Witness for C5: the general part instantiated on the first token of the
`a,b,,c` run. -/
theorem c5_simple_tokenize_witness :
    0 < (⟨[97, 0], 1, 2⟩ : CString).length ∧
    ((∃ te, te < (⟨[97, 44, 98, 44, 44, 99, 0], 6, 7⟩ : CString).length ∧
        strchrB [44] ((⟨[97, 44, 98, 44, 44, 99, 0], 6, 7⟩ : CString).data.getD te 0) = true ∧
        2 = te + 1) ∨
      2 = (⟨[97, 44, 98, 44, 44, 99, 0], 6, 7⟩ : CString).length) :=
  c5_simple_tokenize.2.2.2.2 ⟨[97, 44, 98, 44, 44, 99, 0], 6, 7⟩ [44] 0 2 ⟨[97, 0], 1, 2⟩ rfl

/-- Claim C10 counterexample: on the buffer `( a NUL b )` built from binary
bytes, with delimiter set ` ` (no zero byte) and zone pair `()`, the embedded
zero byte at index 2 lies inside a zone and does not end the token: the
single call scans the whole buffer (cursor 5, not 3, so no second token is
ever emitted), and the next call reports exhaustion. -/
theorem c10_zero_in_zone_counterexample :
    cstr_create_from_buffer true [40, 97, 0, 98, 41] 5 =
      (some ⟨[40, 97, 0, 98, 41, 0], 5, 6⟩, true) ∧
    cstr_tokenize_ex true ⟨[40, 97, 0, 98, 41, 0], 5, 6⟩ [32] (some [40, 41]) none 0 =
      (some ⟨[40, 97, 0], 2, 3⟩, 5) ∧
    cstr_tokenize_ex true ⟨[40, 97, 0, 98, 41, 0], 5, 6⟩ [32] (some [40, 41]) none 5 =
      (none, 5) ∧
    (cstr_tokenize_ex true ⟨[40, 97, 0, 98, 41, 0], 5, 6⟩ [32] (some [40, 41]) none 0).2 ≠ 3 := by
  refine ⟨rfl, rfl, rfl, by decide⟩

/-- Claim C10 amended: the zero byte is a member of every delimiter set
(`strchr` matches the set's own terminator), so in `cstr_tokenize` an
embedded zero always ends the token and is skipped — emitted tokens never
contain a zero byte, and on `( a NUL b )` the simple tokenizer emits the two
tokens around the zero; `cstr_tokenize_ex` treats the zero like any other
delimiter, ending the token only when not inside a zone and not
escape-suppressed (here shown with no zones configured). -/
theorem c10_zero_as_delimiter :
    (∀ d : List Nat, strchrB d 0 = true) ∧
    (∀ (s : CString) (d : List Nat) (p p' : Nat) (tok : CString),
      cstr_tokenize true s d p = (some tok, p') → (0 : Nat) ∉ content tok) ∧
    cstr_tokenize true ⟨[40, 97, 0, 98, 41, 0], 5, 6⟩ [32] 0 = (some ⟨[40, 97, 0], 2, 3⟩, 3) ∧
    cstr_tokenize true ⟨[40, 97, 0, 98, 41, 0], 5, 6⟩ [32] 3 = (some ⟨[98, 41, 0], 2, 3⟩, 5) ∧
    cstr_tokenize true ⟨[40, 97, 0, 98, 41, 0], 5, 6⟩ [32] 5 = (none, 5) ∧
    cstr_tokenize_ex true ⟨[40, 97, 0, 98, 41, 0], 5, 6⟩ [32] none none 0 =
      (some ⟨[40, 97, 0], 2, 3⟩, 3) :=
  ⟨strchrB_zero, fun _ _ _ _ _ h => (tokenize_some_props h).2.1, rfl, rfl, rfl, rfl⟩

/-- Witness for C10 amended: the no-zero-in-token part instantiated on the
first token of the `( a NUL b )` run. -/
theorem c10_zero_as_delimiter_witness :
    (0 : Nat) ∉ content ⟨[40, 97, 0], 2, 3⟩ :=
  c10_zero_as_delimiter.2.1 ⟨[40, 97, 0, 98, 41, 0], 5, 6⟩ [32] 0 3 ⟨[40, 97, 0], 2, 3⟩ rfl

end CStr
